import Mathlib

/-!
Verification of `scrapper.py`, a job-openings scraper for architecture firms.

The source is shallowly embedded: HTML parsing (BeautifulSoup), URL joining
(`urllib.parse.urljoin`) and the network are external collaborators, so a
parsed document is a structure of anchors / first heading / title string,
and `join`, `parse`, `net` are parameters of the embedded functions.
Strings are Lean `String`s; Python `str.lower` is the character-wise
`pyLower`, `str.strip` is `pyStrip`, and `kw in s` is substring
occurrence, all defined below.
-/

/-- One `<a href=...>` element of a parsed document: its visible text
(`get_text()`) and its `href` attribute. -/
structure Anchor where
  text : String
  href : String
deriving Repr, DecidableEq

/-- A parsed HTML document, as far as `scrapper.py` inspects one:
the anchors with an `href` attribute in document order
(`soup.find_all("a", href=True)`), the stripped text of the first
`h1`/`h2` element if any (`soup.find(["h1","h2"])`), and the string of the
`title` element (`soup.title.string`; `none` when there is no title element
or its string is `None`). -/
structure HtmlDoc where
  anchors : List Anchor
  heading : Option String
  titleStr : Option String
deriving Repr, DecidableEq

/-- An opening as built by `extract_openings`:
`{"opening_title": ..., "job_link": ...}`. -/
structure Opening where
  opening_title : String
  job_link : String
deriving Repr, DecidableEq

/-- A row as built by `process_firm` and written to `openings.csv`:
`{"firm_url": ..., "opening_title": ..., "job_link": ...}`. -/
structure Row where
  firm_url : String
  opening_title : String
  job_link : String
deriving Repr, DecidableEq

/-- Python `str.lower()`: lower-case every character. -/
def pyLower (s : String) : String := ⟨s.data.map Char.toLower⟩

/-- Python `str.strip()`: drop whitespace from both ends. -/
def pyStrip (s : String) : String :=
  ⟨((s.data.dropWhile Char.isWhitespace).reverse.dropWhile Char.isWhitespace).reverse⟩

/-- `leadMatch pat s` holds when `pat` is an initial run of `s`
(Python `s.startswith(pat)` on character lists). -/
def leadMatch : List Char → List Char → Bool
  | [], _ => true
  | _ :: _, [] => false
  | p :: ps, c :: cs => p == c && leadMatch ps cs

/-- `occursIn pat s` holds when `pat` occurs contiguously somewhere in `s`
(Python `pat in s` on character lists). -/
def occursIn (pat : List Char) : List Char → Bool
  | [] => leadMatch pat []
  | c :: cs => leadMatch pat (c :: cs) || occursIn pat cs

/-- `KEYWORDS`, `scrapper.py` lines 25-28: words that hint at jobs. -/
def KEYWORDS : List String :=
  ["career", "careers", "job", "jobs", "vacancy", "vacancies",
   "join us", "work with us", "opportunities", "employment"]

/-- The keyword test `find_career_pages` applies to one anchor
(lines 48-50): lower-case the visible text and the href and ask whether any
keyword is contained in either. -/
def anchorKeywordHit (a : Anchor) : Bool :=
  KEYWORDS.any fun kw =>
    occursIn kw.data (pyLower a.text).data || occursIn kw.data (pyLower a.href).data

/-- The Keyword Matcher as a predicate on one candidate string:
some keyword is contained in the lower-cased string. -/
def keywordMatch (s : String) : Bool :=
  KEYWORDS.any fun kw => occursIn kw.data (pyLower s).data

/-- The raw candidate list built by the loop of `find_career_pages`
(lines 47-52): each matching anchor's href resolved against the root URL,
in document order, duplicates kept. -/
def rawCareerLinks (join : String → String → String) (root_url : String)
    (doc : HtmlDoc) : List String :=
  doc.anchors.filterMap fun a =>
    if anchorKeywordHit a then some (join root_url a.href) else none

/-- The duplicate-dropping loop of `find_career_pages` (lines 54-61):
walk the list keeping a `seen` set, appending each link not yet seen. -/
def dropDupsFrom (seen : List String) : List String → List String
  | [] => []
  | l :: ls => if l ∈ seen then dropDupsFrom seen ls else l :: dropDupsFrom (l :: seen) ls

/-- `find_career_pages(root_url, html)`, lines 43-61, with the parsed
document and the URL joiner as parameters. -/
def find_career_pages (join : String → String → String) (root_url : String)
    (doc : HtmlDoc) : List String :=
  dropDupsFrom [] (rawCareerLinks join root_url doc)

/-- Deduplication as the spec words it: each distinct element once, in
order of first occurrence. (Spec-side definition, compared with the
source's `dropDupsFrom` loop.) -/
def firstOccurrences : List String → List String
  | [] => []
  | x :: xs => x :: firstOccurrences (xs.filter fun y => y ≠ x)
termination_by l => l.length
decreasing_by
  simp only [List.length_cons]
  exact Nat.lt_succ_of_le (List.length_filter_le _ _)

theorem dropDupsFrom_eq_firstOccurrences (l : List String) : ∀ seen : List String,
    dropDupsFrom seen l = firstOccurrences (l.filter fun x => x ∉ seen) := by
  induction l with
  | nil => intro seen; simp [dropDupsFrom, firstOccurrences]
  | cons x xs ih =>
    intro seen
    by_cases hx : x ∈ seen
    · have h1 : dropDupsFrom seen (x :: xs) = dropDupsFrom seen xs := by
        simp [dropDupsFrom, hx]
      have h2 : (x :: xs).filter (fun y => y ∉ seen) = xs.filter (fun y => y ∉ seen) := by
        simp [List.filter_cons, hx]
      rw [h1, h2]
      exact ih seen
    · have h1 : dropDupsFrom seen (x :: xs) = x :: dropDupsFrom (x :: seen) xs := by
        simp [dropDupsFrom, hx]
      have h2 : (x :: xs).filter (fun y => y ∉ seen) = x :: xs.filter (fun y => y ∉ seen) := by
        simp [List.filter_cons, hx]
      rw [h1, h2]
      simp only [firstOccurrences]
      congr 1
      rw [ih (x :: seen), List.filter_filter]
      congr 1
      apply List.filter_congr
      intro y _
      by_cases hy : y = x <;> by_cases hys : y ∈ seen <;> simp [hy, hys]

theorem mem_firstOccurrences (u : String) (l : List String) :
    u ∈ firstOccurrences l ↔ u ∈ l := by
  induction l using firstOccurrences.induct with
  | case1 => simp [firstOccurrences]
  | case2 x xs ih =>
    simp only [firstOccurrences, List.mem_cons, ih, List.mem_filter]
    constructor
    · rintro (rfl | ⟨h, _⟩)
      · exact .inl rfl
      · exact .inr h
    · rintro (rfl | h)
      · exact .inl rfl
      · by_cases hx : u = x
        · exact .inl hx
        · exact .inr ⟨h, by simpa using hx⟩

theorem nodup_firstOccurrences (l : List String) : (firstOccurrences l).Nodup := by
  induction l using firstOccurrences.induct with
  | case1 => simp [firstOccurrences]
  | case2 x xs ih =>
    simp only [firstOccurrences, List.nodup_cons]
    refine ⟨fun hmem => ?_, ih⟩
    rw [mem_firstOccurrences, List.mem_filter] at hmem
    simpa using hmem.2

/-- The role vocabulary of `TITLE_RE` (`scrapper.py` lines 30-31). -/
def ROLE_TERMS : List String :=
  ["architect", "designer", "manager", "coordinator", "intern", "assistant",
   "director", "drafter"]

/-- A word character for the regex boundary `\b`: alphanumeric or `_`. -/
def isWordChar (c : Char) : Bool := c.isAlphanum || c == '_'

/-- `wordAt pat s`: `pat` matches at the head of `s` and the first character
of `s` after the match, if any, is not a word character (the closing `\b`). -/
def wordAt : List Char → List Char → Bool
  | [], [] => true
  | [], c :: _ => !isWordChar c
  | _ :: _, [] => false
  | p :: ps, c :: cs => p == c && wordAt ps cs

/-- The opening `\b` test against the character just before the current
search position (`none` at the start of the string). -/
def boundaryOk : Option Char → Bool
  | none => true
  | some c => !isWordChar c

/-- Whole-word search: scan `s` for a position where `pat` matches between
word boundaries; `prev` is the character before `s`, if any. -/
def wwFrom (pat : List Char) : Option Char → List Char → Bool
  | prev, [] => boundaryOk prev && wordAt pat []
  | prev, c :: cs => (boundaryOk prev && wordAt pat (c :: cs)) || wwFrom pat (some c) cs

/-- `TITLE_RE.search(text)` (lines 30-31): case-insensitive whole-word
search for any role term, modelled by lower-casing the text and searching
each (lower-case) term between word boundaries. -/
def titleSearch (s : String) : Bool :=
  ROLE_TERMS.any fun t => wwFrom t.data none (pyLower s).data

/-- The per-anchor test of the primary path of `extract_openings`
(lines 78-79): trimmed text longer than 4 characters and `TITLE_RE` hit. -/
def anchorQualifies (a : Anchor) : Bool :=
  4 < (pyStrip a.text).length && titleSearch (pyStrip a.text)

/-- The opening a qualifying anchor contributes (lines 80-81). -/
def anchorOpening (join : String → String → String) (career_url : String)
    (a : Anchor) : Opening :=
  ⟨pyStrip a.text, join career_url a.href⟩

/-- The primary-path loop of `extract_openings` (lines 77-81). -/
def primaryOpenings (join : String → String → String) (career_url : String)
    (doc : HtmlDoc) : List Opening :=
  doc.anchors.filterMap fun a =>
    if anchorQualifies a then some (anchorOpening join career_url a) else none

/-- The fallback guess of line 86: the first `h1`/`h2` text when a heading
exists, else the title string when present, else the empty string. -/
def guessOf (doc : HtmlDoc) : String :=
  match doc.heading with
  | some h => h
  | none => doc.titleStr.getD ""

/-- `extract_openings(career_url)`, lines 64-90. `net` is the network seen
through `fetch` (`none` on any fetch failure), `parse` is BeautifulSoup;
`if not html` also drops an empty body. -/
def extract_openings (join : String → String → String) (parse : String → HtmlDoc)
    (net : String → Option String) (career_url : String) : List Opening :=
  match net career_url with
  | none => []
  | some html =>
    if html = "" then []
    else if (primaryOpenings join career_url (parse html)).isEmpty then
      if guessOf (parse html) = "" then [] else [⟨guessOf (parse html), career_url⟩]
    else primaryOpenings join career_url (parse html)

/-- `process_firm(url)`, lines 93-110: fetch the root page, locate career
pages (the root URL as sole candidate when none found), extract openings
from every candidate in order, tagging each with the firm's root URL. -/
def process_firm (join : String → String → String) (parse : String → HtmlDoc)
    (net : String → Option String) (url : String) : List Row :=
  match net url with
  | none => []
  | some html =>
    if html = "" then []
    else
      (if (find_career_pages join url (parse html)).isEmpty then [url]
       else find_career_pages join url (parse html)).flatMap fun page =>
        (extract_openings join parse net page).map fun j =>
          ⟨url, j.opening_title, j.job_link⟩

/-- Line 123: strip each line of the input file, dropping blank lines. -/
def parseFirms (lines : List String) : List String :=
  lines.filterMap fun l => if pyStrip l = "" then none else some (pyStrip l)

/-- Lines 126-130: process the firms in input order (`ThreadPoolExecutor.map`
preserves the input order of `firms`) and flatten the per-firm rows. -/
def gatherRows (join : String → String → String) (parse : String → HtmlDoc)
    (net : String → Option String) (firms : List String) : List Row :=
  (firms.map (process_firm join parse net)).flatten

/-- The header row `csv.DictWriter` writes (line 138). -/
def csvHeader : List String := ["firm_url", "opening_title", "job_link"]

/-- The CSV cells of one row, in field order (line 138). -/
def rowCells (r : Row) : List String := [r.firm_url, r.opening_title, r.job_link]

/-- The itemized Reporter (lines 132-142): when there are no rows, no file
and the message `No openings found.`; otherwise the file's cell rows
(header first, one row per opening) and the count-and-path message. -/
def itemizedReport (rows : List Row) : Option (List (List String)) × String :=
  if rows.isEmpty then (none, "No openings found.")
  else (some (csvHeader :: rows.map rowCells),
        "Saved " ++ toString rows.length ++ " openings to openings.csv")

/-- Modelled from the spec: the status-report variant's `FirmResult` record
(spec section 3); the status-mode code is not among the source files. -/
structure FirmResult where
  firm : String
  jobs : Bool
  pages : List String
  note : Option String
deriving Repr, DecidableEq

/-- Modelled from the spec: the status-mode Firm Processor (spec
section 4.5), absent from the source files. On root fetch failure it
returns `{firm, jobs:false, note:"could not reach site"}`; on success it
locates career pages (root URL as sole fallback candidate), keeps the
candidates whose fetched body contains a keyword, and sets `jobs` true
iff at least one qualifies. -/
def status_process_firm (join : String → String → String) (parse : String → HtmlDoc)
    (net : String → Option String) (url : String) : FirmResult :=
  match net url with
  | none => ⟨url, false, [], some "could not reach site"⟩
  | some html =>
    let doc := parse html
    let cp := find_career_pages join url doc
    let candidates := if cp.isEmpty then [url] else cp
    let good := candidates.filter fun p =>
      match net p with
      | none => false
      | some body => keywordMatch body
    ⟨url, !good.isEmpty, good, none⟩

/-- Modelled from the spec: the status-mode Reporter line (spec
section 4.7), absent from the source files: `"<firm>: openings found →
<comma-joined pages>"` when `jobs` is true, else `"<firm>: <note or 'no
openings found'>"`. -/
def status_report_line (r : FirmResult) : String :=
  if r.jobs then r.firm ++ ": openings found → " ++ String.intercalate ", " r.pages
  else r.firm ++ ": " ++ r.note.getD "no openings found"

theorem leadMatch_iff (t : List Char) : ∀ s : List Char,
    leadMatch t s = true ↔ ∃ post, s = t ++ post := by
  induction t with
  | nil => intro s; simp [leadMatch]
  | cons p ps ih =>
    intro s
    cases s with
    | nil => simp [leadMatch]
    | cons c cs =>
      simp only [leadMatch, Bool.and_eq_true, beq_iff_eq, ih, List.cons_append,
        List.cons.injEq]
      constructor
      · rintro ⟨rfl, post, rfl⟩
        exact ⟨post, rfl, rfl⟩
      · rintro ⟨post, rfl, rfl⟩
        exact ⟨rfl, post, rfl⟩

theorem occursIn_iff (t : List Char) : ∀ s : List Char,
    occursIn t s = true ↔ ∃ pre post, s = pre ++ t ++ post := by
  intro s
  induction s with
  | nil =>
    simp only [occursIn, leadMatch_iff]
    constructor
    · rintro ⟨post, h⟩
      exact ⟨[], post, by simpa using h⟩
    · rintro ⟨pre, post, h⟩
      rw [List.append_assoc] at h
      rcases List.append_eq_nil.mp h.symm with ⟨rfl, h2⟩
      exact ⟨post, by simpa using h⟩
  | cons c cs ih =>
    simp only [occursIn, Bool.or_eq_true, leadMatch_iff, ih]
    constructor
    · rintro (⟨post, h⟩ | ⟨pre, post, rfl⟩)
      · exact ⟨[], post, by simpa using h⟩
      · exact ⟨c :: pre, post, by simp⟩
    · rintro ⟨pre, post, h⟩
      cases pre with
      | nil => exact .inl ⟨post, by simpa using h⟩
      | cons d ds =>
        simp only [List.cons_append, List.cons.injEq] at h
        exact .inr ⟨ds, post, h.2⟩

theorem keywords_pyLower (kw : String) (h : kw ∈ KEYWORDS) : pyLower kw = kw := by
  simp only [KEYWORDS, List.mem_cons, List.not_mem_nil, or_false] at h
  rcases h with rfl | rfl | rfl | rfl | rfl | rfl | rfl | rfl | rfl | rfl
  all_goals decide

/-- `K` is a case-insensitive substring of `S`: lower-cased `K` occurs
contiguously in lower-cased `S`. -/
def CISubstr (k s : String) : Prop :=
  ∃ pre post, (pyLower s).data = pre ++ (pyLower k).data ++ post

/-- C4: the Career-Page Locator's keyword match on a candidate string is
true if and only if some term of the fixed vocabulary is a case-insensitive
substring of it; in particular it is true whenever a vocabulary term
appears and false when none does. -/
theorem keywordMatch_iff (S : String) :
    keywordMatch S = true ↔ ∃ kw ∈ KEYWORDS, CISubstr kw S := by
  unfold keywordMatch CISubstr
  rw [List.any_eq_true]
  constructor
  · rintro ⟨kw, hkw, hocc⟩
    rw [occursIn_iff] at hocc
    refine ⟨kw, hkw, ?_⟩
    rw [keywords_pyLower kw hkw]
    exact hocc
  · rintro ⟨kw, hkw, pre, post, h⟩
    refine ⟨kw, hkw, ?_⟩
    rw [occursIn_iff]
    rw [keywords_pyLower kw hkw] at h
    exact ⟨pre, post, h⟩

/-- C1: for every root URL and parsed document, `find_career_pages` has no
duplicates, equals the first-occurrence deduplication of the raw matching
resolved links (each matching resolved URL exactly once, in order of first
occurrence among the anchors), has the same members as the raw links, and
is empty when no anchor's text or href matches a keyword. -/
theorem find_career_pages_spec (join : String → String → String) (root_url : String)
    (doc : HtmlDoc) :
    (find_career_pages join root_url doc).Nodup ∧
    find_career_pages join root_url doc
      = firstOccurrences (rawCareerLinks join root_url doc) ∧
    (∀ u, u ∈ find_career_pages join root_url doc ↔ u ∈ rawCareerLinks join root_url doc) ∧
    ((∀ a ∈ doc.anchors, anchorKeywordHit a = false) →
      find_career_pages join root_url doc = []) := by
  have hfo : find_career_pages join root_url doc
      = firstOccurrences (rawCareerLinks join root_url doc) := by
    unfold find_career_pages
    rw [dropDupsFrom_eq_firstOccurrences]
    congr 1
    simp
  refine ⟨?_, hfo, ?_, ?_⟩
  · rw [hfo]; exact nodup_firstOccurrences _
  · intro u; rw [hfo]; exact mem_firstOccurrences u _
  · intro hnone
    have hraw : rawCareerLinks join root_url doc = [] := by
      unfold rawCareerLinks
      rw [List.filterMap_eq_nil_iff]
      intro a ha
      rw [hnone a ha]
      rfl
    rw [hfo, hraw]
    simp [firstOccurrences]

theorem find_career_pages_spec_witness :
    find_career_pages (fun b r => b ++ r) "https://x.com"
      ⟨[⟨"About", "/about"⟩], none, none⟩ = [] := by
  have h := find_career_pages_spec (fun b r => b ++ r) "https://x.com"
    ⟨[⟨"About", "/about"⟩], none, none⟩
  exact h.2.2.2 (by decide)

/-- The closing word boundary: the character right after a match, if any,
is not a word character. -/
def afterBoundary : List Char → Prop
  | [] => True
  | c :: _ => isWordChar c = false

/-- The opening word boundary: the character right before the match is not
a word character. `prev` is the character before the current suffix
(`none` at the start of the string); the relevant character is the last of
`pre` when `pre` is nonempty. -/
def prevBoundary : Option Char → List Char → Prop
  | prev, [] => boundaryOk prev = true
  | _, c :: cs => prevBoundary (some c) cs

theorem wordAt_iff (t : List Char) : ∀ s : List Char,
    wordAt t s = true ↔ ∃ post, s = t ++ post ∧ afterBoundary post := by
  induction t with
  | nil =>
    intro s
    cases s with
    | nil =>
      simp only [wordAt, List.nil_append]
      exact ⟨fun _ => ⟨[], rfl, trivial⟩, fun _ => trivial⟩
    | cons c cs =>
      simp only [wordAt, Bool.not_eq_true', List.nil_append]
      constructor
      · intro h
        exact ⟨c :: cs, rfl, h⟩
      · rintro ⟨post, rfl, h⟩
        exact h
  | cons p ps ih =>
    intro s
    cases s with
    | nil => simp [wordAt]
    | cons c cs =>
      simp only [wordAt, Bool.and_eq_true, beq_iff_eq, ih, List.cons_append,
        List.cons.injEq]
      constructor
      · rintro ⟨rfl, post, rfl, hb⟩
        exact ⟨post, ⟨rfl, rfl⟩, hb⟩
      · rintro ⟨post, ⟨rfl, rfl⟩, hb⟩
        exact ⟨rfl, post, rfl, hb⟩

theorem wwFrom_iff (t : List Char) : ∀ (s : List Char) (prev : Option Char),
    wwFrom t prev s = true ↔
      ∃ pre post, s = pre ++ t ++ post ∧ prevBoundary prev pre ∧ afterBoundary post := by
  intro s
  induction s with
  | nil =>
    intro prev
    simp only [wwFrom, Bool.and_eq_true, wordAt_iff]
    constructor
    · rintro ⟨hb, post, hp, ha⟩
      rcases List.append_eq_nil.mp hp.symm with ⟨rfl, rfl⟩
      exact ⟨[], [], rfl, hb, ha⟩
    · rintro ⟨pre, post, h, hpb, ha⟩
      rw [List.append_assoc] at h
      rcases List.append_eq_nil.mp h.symm with ⟨rfl, h2⟩
      rcases List.append_eq_nil.mp h2 with ⟨rfl, rfl⟩
      exact ⟨hpb, [], rfl, ha⟩
  | cons c cs ih =>
    intro prev
    simp only [wwFrom, Bool.or_eq_true, Bool.and_eq_true, wordAt_iff, ih]
    constructor
    · rintro (⟨hb, post, hp, ha⟩ | ⟨pre, post, rfl, hpb, ha⟩)
      · exact ⟨[], post, by simpa using hp, hb, ha⟩
      · exact ⟨c :: pre, post, by simp, hpb, ha⟩
    · rintro ⟨pre, post, h, hpb, ha⟩
      cases pre with
      | nil =>
        left
        exact ⟨hpb, post, by simpa using h, ha⟩
      | cons d ds =>
        right
        simp only [List.cons_append, List.cons.injEq] at h
        obtain ⟨rfl, h2⟩ := h
        exact ⟨ds, post, h2, hpb, ha⟩

theorem roleTerms_pyLower (t : String) (h : t ∈ ROLE_TERMS) : pyLower t = t := by
  simp only [ROLE_TERMS, List.mem_cons, List.not_mem_nil, or_false] at h
  rcases h with rfl | rfl | rfl | rfl | rfl | rfl | rfl | rfl
  all_goals decide

/-- `t` has a case-insensitive whole-word occurrence in `s`: lower-cased,
`s` decomposes as `pre ++ t ++ post` with a non-word character (or the end
of the string) on each side of `t`. -/
def WholeWordCI (t s : String) : Prop :=
  ∃ pre post, (pyLower s).data = pre ++ (pyLower t).data ++ post ∧
    prevBoundary none pre ∧ afterBoundary post

/-- A `TITLE_RE` hit, spec-side: some role term has a case-insensitive
whole-word occurrence in the string. -/
def TitleHit (s : String) : Prop := ∃ t ∈ ROLE_TERMS, WholeWordCI t s

theorem titleSearch_iff (s : String) : titleSearch s = true ↔ TitleHit s := by
  unfold titleSearch TitleHit WholeWordCI
  rw [List.any_eq_true]
  constructor
  · rintro ⟨t, ht, hw⟩
    rw [wwFrom_iff] at hw
    refine ⟨t, ht, ?_⟩
    rw [roleTerms_pyLower t ht]
    exact hw
  · rintro ⟨t, ht, hw⟩
    refine ⟨t, ht, ?_⟩
    rw [wwFrom_iff]
    rw [roleTerms_pyLower t ht] at hw
    exact hw

instance titleHitDecidable (s : String) : Decidable (TitleHit s) :=
  decidable_of_iff (titleSearch s = true) (titleSearch_iff s)

/-- C3: on the primary path an anchor contributes the opening
`{opening_title: trimmed text, job_link: href resolved against the career
URL}` if and only if its trimmed visible text is longer than 4 characters
and contains a case-insensitive whole-word occurrence of one of the fixed
role terms; the primary openings are exactly those contributions, and the
per-anchor test is equivalent to that condition. -/
theorem primaryOpenings_iff (join : String → String → String) (career_url : String)
    (doc : HtmlDoc) :
    primaryOpenings join career_url doc
      = doc.anchors.filterMap (fun a =>
          if 4 < (pyStrip a.text).length ∧ TitleHit (pyStrip a.text)
          then some ⟨pyStrip a.text, join career_url a.href⟩ else none) ∧
    ∀ a : Anchor, anchorQualifies a = true ↔
      4 < (pyStrip a.text).length ∧ TitleHit (pyStrip a.text) := by
  have hq : ∀ a : Anchor, anchorQualifies a = true ↔
      4 < (pyStrip a.text).length ∧ TitleHit (pyStrip a.text) := by
    intro a
    unfold anchorQualifies
    rw [Bool.and_eq_true, decide_eq_true_iff, titleSearch_iff]
  refine ⟨?_, hq⟩
  have hfun : ∀ a : Anchor,
      (if anchorQualifies a then some (anchorOpening join career_url a) else none)
        = (if 4 < (pyStrip a.text).length ∧ TitleHit (pyStrip a.text)
           then some (⟨pyStrip a.text, join career_url a.href⟩ : Opening) else none) := by
    intro a
    by_cases h : anchorQualifies a = true
    · rw [if_pos h, if_pos ((hq a).mp h)]
      rfl
    · rw [if_neg h, if_neg (fun hp => h ((hq a).mpr hp))]
  exact congrArg (fun f => List.filterMap f doc.anchors) (funext hfun)

theorem filterMap_if_eq_map_filter {α β : Type} (p : α → Bool) (f : α → β) (l : List α) :
    (l.filterMap fun a => if p a then some (f a) else none) = (l.filter p).map f := by
  induction l with
  | nil => rfl
  | cons a as ih =>
    by_cases h : p a <;> simp [List.filterMap_cons, List.filter_cons, h, ih]

/-- C10: the primary path performs no deduplication: it emits one opening
per qualifying anchor occurrence, in document order (`map` over `filter`
preserves multiplicity and order), so a page with two identical qualifying
anchors yields the same opening twice, as the concrete conjunct shows. -/
theorem primaryOpenings_no_dedup (join : String → String → String) (career_url : String)
    (doc : HtmlDoc) :
    primaryOpenings join career_url doc
      = (doc.anchors.filter anchorQualifies).map (anchorOpening join career_url) ∧
    primaryOpenings (fun b r => b ++ r) "https://x.com"
        ⟨[⟨"Project Manager", "/jobs/pm"⟩, ⟨"Project Manager", "/jobs/pm"⟩], none, none⟩
      = [⟨"Project Manager", "https://x.com/jobs/pm"⟩,
         ⟨"Project Manager", "https://x.com/jobs/pm"⟩] := by
  refine ⟨?_, by decide⟩
  unfold primaryOpenings
  exact filterMap_if_eq_map_filter anchorQualifies (anchorOpening join career_url) doc.anchors

/-- C2: when the fetched career page yields zero openings on the primary
path, the extractor emits exactly one opening titled with the first
`h1`/`h2` text (or, with no heading, the title string) and `job_link`
equal to the career-page URL itself, or zero openings when that guess is
empty; and the fallback is never taken when the primary path yields at
least one opening. -/
theorem extract_openings_fallback (join : String → String → String)
    (parse : String → HtmlDoc) (net : String → Option String) (career_url html : String)
    (hnet : net career_url = some html) (hne : html ≠ "") :
    (primaryOpenings join career_url (parse html) = [] →
      extract_openings join parse net career_url
        = if guessOf (parse html) = "" then []
          else [⟨guessOf (parse html), career_url⟩]) ∧
    (primaryOpenings join career_url (parse html) ≠ [] →
      extract_openings join parse net career_url
        = primaryOpenings join career_url (parse html)) := by
  have hx : extract_openings join parse net career_url
      = if (primaryOpenings join career_url (parse html)).isEmpty then
          (if guessOf (parse html) = "" then []
           else [⟨guessOf (parse html), career_url⟩])
        else primaryOpenings join career_url (parse html) := by
    unfold extract_openings
    rw [hnet]
    exact if_neg hne
  constructor
  · intro hz
    rw [hx, hz]
    rfl
  · intro hnz
    have hie : (primaryOpenings join career_url (parse html)).isEmpty = false := by
      cases hp : primaryOpenings join career_url (parse html) with
      | nil => exact absurd hp hnz
      | cons o os => rfl
    rw [hx, hie]
    rfl

theorem extract_openings_fallback_witness :
    extract_openings (fun b r => b ++ r) (fun _ => ⟨[], some "Studio Careers", none⟩)
        (fun _ => some "page") "https://x.com/careers"
      = [⟨"Studio Careers", "https://x.com/careers"⟩] := by
  have h := extract_openings_fallback (fun b r => b ++ r)
      (fun _ => ⟨[], some "Studio Careers", none⟩) (fun _ => some "page")
      "https://x.com/careers" "page" rfl (by decide)
  exact (h.1 rfl).trans (by decide)

/-- C5: in itemized mode a firm whose root-page fetch fails contributes
the empty result set: no rows, no note, no error. -/
theorem process_firm_fetch_failure (join : String → String → String)
    (parse : String → HtmlDoc) (net : String → Option String) (url : String)
    (h : net url = none) : process_firm join parse net url = [] := by
  unfold process_firm
  rw [h]

theorem process_firm_fetch_failure_witness :
    process_firm (fun b r => b ++ r) (fun _ => ⟨[], none, none⟩) (fun _ => none)
      "https://down.example" = [] :=
  process_firm_fetch_failure _ _ _ _ rfl

/-- C6: in itemized mode, when the root fetch succeeds but the locator
returns no candidates, the root URL is the sole candidate and the firm's
rows are exactly the openings the extractor finds on it, tagged with the
firm's root URL (the single-candidate case of the candidate-order
concatenation). -/
theorem process_firm_root_fallback (join : String → String → String)
    (parse : String → HtmlDoc) (net : String → Option String) (url html : String)
    (hnet : net url = some html) (hne : html ≠ "")
    (hloc : find_career_pages join url (parse html) = []) :
    process_firm join parse net url
      = (extract_openings join parse net url).map fun j =>
          ⟨url, j.opening_title, j.job_link⟩ := by
  unfold process_firm
  rw [hnet]
  have step : (if html = "" then ([] : List Row)
      else (if (find_career_pages join url (parse html)).isEmpty then [url]
            else find_career_pages join url (parse html)).flatMap fun page =>
        (extract_openings join parse net page).map fun j =>
          ⟨url, j.opening_title, j.job_link⟩)
      = (extract_openings join parse net url).map fun j =>
          ⟨url, j.opening_title, j.job_link⟩ := by
    rw [if_neg hne, hloc]
    simp
  exact step

theorem process_firm_root_fallback_witness :
    process_firm (fun b r => b ++ r) (fun _ => ⟨[⟨"Senior Architect", "/a"⟩], none, none⟩)
        (fun _ => some "page") "https://x.com"
      = [⟨"https://x.com", "Senior Architect", "https://x.com/a"⟩] := by
  have h := process_firm_root_fallback (fun b r => b ++ r)
      (fun _ => ⟨[⟨"Senior Architect", "/a"⟩], none, none⟩) (fun _ => some "page")
      "https://x.com" "page" rfl (by decide) (by decide)
  exact h.trans (by decide)

/-- C7: itemized reporting: the rows are the per-firm results flattened in
input-list order; with no rows the reporter prints `No openings found.`
and writes no file; otherwise the file is the header row
`firm_url,opening_title,job_link` followed by exactly one cell row per
opening, and the message states the row count and the output path. -/
theorem itemizedReport_spec (join : String → String → String) (parse : String → HtmlDoc)
    (net : String → Option String) (firms : List String) :
    gatherRows join parse net firms = (firms.map (process_firm join parse net)).flatten ∧
    (gatherRows join parse net firms = [] →
      itemizedReport (gatherRows join parse net firms) = (none, "No openings found.")) ∧
    (gatherRows join parse net firms ≠ [] →
      itemizedReport (gatherRows join parse net firms)
        = (some (csvHeader :: (gatherRows join parse net firms).map rowCells),
           "Saved " ++ toString (gatherRows join parse net firms).length
             ++ " openings to openings.csv") ∧
      ((gatherRows join parse net firms).map rowCells).length
        = (gatherRows join parse net firms).length) := by
  refine ⟨rfl, ?_, ?_⟩
  · intro hz
    rw [hz]
    rfl
  · intro hnz
    have hie : (gatherRows join parse net firms).isEmpty = false := by
      cases hp : gatherRows join parse net firms with
      | nil => exact absurd hp hnz
      | cons r rs => rfl
    unfold itemizedReport
    rw [hie]
    exact ⟨rfl, by simp⟩

theorem itemizedReport_spec_witness :
    itemizedReport (gatherRows (fun b r => b ++ r)
        (fun _ => ⟨[⟨"Senior Architect", "/a"⟩], none, none⟩) (fun _ => some "page")
        ["https://x.com"])
      = (some [["firm_url", "opening_title", "job_link"],
               ["https://x.com", "Senior Architect", "https://x.com/a"]],
         "Saved 1 openings to openings.csv") := by
  have h := itemizedReport_spec (fun b r => b ++ r)
      (fun _ => ⟨[⟨"Senior Architect", "/a"⟩], none, none⟩) (fun _ => some "page")
      ["https://x.com"]
  exact ((h.2.2 (by decide)).1).trans (by decide)

/-- C8: in status mode a firm whose root-page fetch fails yields the
record `{firm, jobs:false, note:"could not reach site"}` and the reporter
prints the line `<firm>: could not reach site`. -/
theorem status_fetch_failure (join : String → String → String) (parse : String → HtmlDoc)
    (net : String → Option String) (url : String) (h : net url = none) :
    status_process_firm join parse net url
      = ⟨url, false, [], some "could not reach site"⟩ ∧
    status_report_line (status_process_firm join parse net url)
      = url ++ ": could not reach site" := by
  have h1 : status_process_firm join parse net url
      = ⟨url, false, [], some "could not reach site"⟩ := by
    unfold status_process_firm
    rw [h]
  refine ⟨h1, ?_⟩
  rw [h1]
  show url ++ ": " ++ "could not reach site" = url ++ ": could not reach site"
  rw [String.append_assoc]
  exact congrArg (url ++ ·) (by decide)

theorem status_fetch_failure_witness :
    status_report_line (status_process_firm (fun b r => b ++ r)
        (fun _ => ⟨[], none, none⟩) (fun _ => none) "https://down.example")
      = "https://down.example: could not reach site" := by
  have h := status_fetch_failure (fun b r => b ++ r) (fun _ => ⟨[], none, none⟩)
      (fun _ => none) "https://down.example" rfl
  exact h.2.trans (by decide)

theorem process_firm_tags (join : String → String → String) (parse : String → HtmlDoc)
    (net : String → Option String) (url : String) :
    ∀ r ∈ process_firm join parse net url, r.firm_url = url := by
  intro r hr
  unfold process_firm at hr
  cases hn : net url with
  | none =>
    rw [hn] at hr
    simp at hr
  | some html =>
    rw [hn] at hr
    by_cases he : html = ""
    · simp [he] at hr
    · simp only [he, if_false, reduceCtorEq] at hr
      rw [List.mem_flatMap] at hr
      obtain ⟨page, _, hr2⟩ := hr
      rw [List.mem_map] at hr2
      obtain ⟨j, _, rfl⟩ := hr2
      rfl

/-- C9: every row a run produces carries a `firm_url` equal to one of the
non-blank stripped lines of the input list — the firm whose processing
produced it. -/
theorem gatherRows_firm_url_invariant (join : String → String → String)
    (parse : String → HtmlDoc) (net : String → Option String) (lines : List String) :
    ∀ r ∈ gatherRows join parse net (parseFirms lines), r.firm_url ∈ parseFirms lines := by
  intro r hr
  unfold gatherRows at hr
  rw [List.mem_flatten] at hr
  obtain ⟨rows, hrows, hrmem⟩ := hr
  rw [List.mem_map] at hrows
  obtain ⟨firm, hfirm, rfl⟩ := hrows
  rw [process_firm_tags join parse net firm r hrmem]
  exact hfirm

theorem gatherRows_firm_url_invariant_witness :
    Row.firm_url ⟨"https://x.com", "Senior Architect", "https://x.com/a"⟩
      ∈ parseFirms ["  https://x.com  ", ""] := by
  apply gatherRows_firm_url_invariant (fun b r => b ++ r)
      (fun _ => ⟨[⟨"Senior Architect", "/a"⟩], none, none⟩) (fun _ => some "page")
      ["  https://x.com  ", ""]
  decide
